import Mathlib

/-!
Verification of the project-history store (`src/lib/project-history.ts`) and
the render-time path formatter (`formatPath` in the dropdown component).

The TypeScript module is a set of read-modify-write operations against a
single `localStorage` key. We embed it shallowly:

* the durable content under the key is a value of the inductive type `Stored`;
* each operation is a pure function taking (and, for mutators, returning) a
  `Stored` value, with the wall clock (`Date.now()`) passed explicitly;
* JavaScript string primitives (`split`, `trim`, `startsWith`, `replace`) are
  modelled as structurally recursive functions over the character list of a
  `String`, so every definition evaluates by kernel reduction.
-/

/-- JavaScript `String.prototype.split` with a one-character separator, on the
character list: splits at every occurrence of `sep`, keeping empty segments.
`splitChar sep [] = [[]]`, matching `"".split(sep) === [""]`. -/
def splitChar (sep : Char) : List Char → List (List Char)
  | [] => [[]]
  | c :: rest =>
    match splitChar sep rest with
    | [] => [[]]
    | g :: gs => if c = sep then [] :: g :: gs else (c :: g) :: gs

/-- JavaScript `s.split(sep)` for a one-character separator. -/
def jsSplit (s : String) (sep : Char) : List String :=
  (splitChar sep s.data).map (fun l => String.mk l)

/-- Strip leading and trailing whitespace from a character list. -/
def trimChars (l : List Char) : List Char :=
  ((l.dropWhile Char.isWhitespace).reverse.dropWhile Char.isWhitespace).reverse

/-- JavaScript `s.trim()`: strip leading and trailing whitespace characters. -/
def jsTrim (s : String) : String := String.mk (trimChars s.data)

/-- Whether the first character list begins with the second one. -/
def beginsWith : List Char → List Char → Bool
  | _, [] => true
  | [], _ :: _ => false
  | a :: as, b :: bs => a = b && beginsWith as bs

/-- JavaScript `s.startsWith(pat)`. -/
def jsStartsWith (s pat : String) : Bool := beginsWith s.data pat.data

/-- Replace the first occurrence of `pat` by `repl`, like JavaScript
`s.replace(pat, repl)` with a string pattern (only the first occurrence is
replaced; the replacement string contains no `$` patterns in this code). -/
def replaceFirstChars (pat repl : List Char) : List Char → List Char
  | [] => if beginsWith [] pat then repl else []
  | c :: rest =>
    if beginsWith (c :: rest) pat then repl ++ (c :: rest).drop pat.length
    else c :: replaceFirstChars pat repl rest

/-- JavaScript `s.replace(pat, repl)` with string arguments. -/
def jsReplaceFirst (s pat repl : String) : String :=
  String.mk (replaceFirstChars pat.data repl.data s.data)

/-- One element of the parsed history array as JavaScript sees it at run time.
The cast `JSON.parse(stored) as ProjectHistoryItem[]` performs no validation,
so each field is optional: `none` models a missing (`undefined`) property.
Items written by `saveProjectToHistory` always carry all three fields. -/
structure ProjectHistoryItem where
  path : Option String
  lastUsed : Option Int
  name : Option String
deriving DecidableEq, Repr

/-- The durable content under the storage key `claudia-project-history`.
`absent` models `localStorage.getItem` returning `null`; `emptyStr` an empty
stored string (falsy, so `loadProjectHistory` returns early); `unparseable` a
string on which `JSON.parse` throws; `nonArray` a string parsing to a value
without a `sort` method, so `items.sort(...)` throws; `items l` a string
parsing to an array of objects. -/
inductive Stored where
  | absent
  | emptyStr
  | unparseable
  | nonArray
  | items (l : List ProjectHistoryItem)
deriving DecidableEq, Repr

/-- `const MAX_HISTORY_ITEMS = 10`. -/
def MAX_HISTORY_ITEMS : Nat := 10

/-- The comparator `(a, b) => b.lastUsed - a.lastUsed` handed to `sort`, under
ECMAScript `SortCompare` semantics: when a `lastUsed` property is `undefined`
the subtraction yields `NaN`, which `SortCompare` maps to `+0`. -/
def jsCompare (a b : ProjectHistoryItem) : Int :=
  match b.lastUsed, a.lastUsed with
  | some x, some y => x - y
  | _, _ => 0

/-- The sort-before relation induced by the comparator: `a` may stay before
`b` exactly when the comparator result is nonpositive. -/
def itemLe (a b : ProjectHistoryItem) : Prop := jsCompare a b ≤ 0

instance : DecidableRel itemLe :=
  fun a b => inferInstanceAs (Decidable (jsCompare a b ≤ 0))

/-- `items.sort((a, b) => b.lastUsed - a.lastUsed)`. `Array.prototype.sort` is
stable (ES2019), and for a consistent comparator stability plus sortedness
determines the output uniquely; insertion sort is stable, so it computes the
same function on such inputs. -/
def sortItems (l : List ProjectHistoryItem) : List ProjectHistoryItem :=
  l.insertionSort itemLe

/-- `getProjectName` from `project-history.ts`: split the path on `/`, keep
the truthy (nonempty) segments, take the last one, with the
`|| 'Unknown Project'` fallback for a missing or falsy result. -/
def getProjectName (path : String) : String :=
  let parts := (jsSplit path '/').filter (fun s => s ≠ "")
  match parts.getLast? with
  | none => "Unknown Project"
  | some s => if s = "" then "Unknown Project" else s

/-- `loadProjectHistory` from `project-history.ts` as a function of the stored
content: absent or empty content returns `[]` early, every caught exception
(parse failure, or `sort` missing on a non-array) yields `[]`, and a parsed
array is returned sorted by the comparator. -/
def loadProjectHistory : Stored → List ProjectHistoryItem
  | .absent => []
  | .emptyStr => []
  | .unparseable => []
  | .nonArray => []
  | .items l => sortItems l

/-- The entry `saveProjectToHistory` unshifts: the path kept verbatim,
`lastUsed` the current time, the name derived from the path. -/
def newHistoryItem (path : String) (now : Int) : ProjectHistoryItem :=
  ⟨some path, some now, some (getProjectName path)⟩

/-- `saveProjectToHistory` from `project-history.ts`. The guard models
`!path || path.trim() === ''`; the wall clock is the explicit `now`. Existing
entries with the same path are filtered out, the new entry is unshifted, and
the list is truncated to `MAX_HISTORY_ITEMS` before being written back. -/
def saveProjectToHistory (path : String) (now : Int) (st : Stored) : Stored :=
  if path = "" ∨ jsTrim path = "" then st
  else
    let history := loadProjectHistory st
    let history := history.filter (fun item => item.path ≠ some path)
    let history := newHistoryItem path now :: history
    let history := history.take MAX_HISTORY_ITEMS
    .items history

/-- `removeProjectFromHistory` from `project-history.ts`: load, filter out the
matching path, write the remainder back. -/
def removeProjectFromHistory (path : String) (st : Stored) : Stored :=
  .items ((loadProjectHistory st).filter (fun item => item.path ≠ some path))

/-- `clearProjectHistory` from `project-history.ts`:
`localStorage.removeItem(STORAGE_KEY)`. -/
def clearProjectHistory (_ : Stored) : Stored := .absent

/-- `getMostRecentProject` from `project-history.ts`:
`history.length > 0 ? history[0].path : null`. -/
def getMostRecentProject (st : Stored) : Option String :=
  match loadProjectHistory st with
  | [] => none
  | item :: _ => item.path

/-- The regex test `path.match(/^[A-Z]:\\Users\\/)` from `formatPath`. -/
def winUsersTest (path : String) : Bool :=
  match path.data with
  | c :: ':' :: '\\' :: 'U' :: 's' :: 'e' :: 'r' :: 's' :: '\\' :: _ =>
    decide ('A' ≤ c) && decide (c ≤ 'Z')
  | _ => false

/-- `formatPath` from the dropdown component: shorten a recognised
home-directory prefix to `~` at render time; each of the three branches
returns early only when its username segment is truthy, and control falls
through to return the path unchanged otherwise. -/
def formatPath (path : String) : String :=
  let macStep : Option String :=
    if jsStartsWith path "/Users/" then
      let username := (jsSplit path '/').getD 2 ""
      if username ≠ "" then
        some (jsReplaceFirst path ("/Users/" ++ username) "~")
      else none
    else none
  match macStep with
  | some r => r
  | none =>
    let linuxStep : Option String :=
      if jsStartsWith path "/home/" then
        let username := (jsSplit path '/').getD 2 ""
        if username ≠ "" then
          some (jsReplaceFirst path ("/home/" ++ username) "~")
        else none
      else none
    match linuxStep with
    | some r => r
    | none =>
      if winUsersTest path then
        let parts := jsSplit path '\\'
        if parts.length > 2 then
          jsReplaceFirst path (parts.getD 0 "" ++ "\\Users\\" ++ parts.getD 2 "") "~"
        else path
      else path

/-- One mutating store operation, for stating sequence properties. -/
inductive HistOp where
  | save (path : String) (now : Int)
  | remove (path : String)
  | clear

/-- Run one operation against the stored content. -/
def applyOp (st : Stored) : HistOp → Stored
  | .save p t => saveProjectToHistory p t st
  | .remove p => removeProjectFromHistory p st
  | .clear => clearProjectHistory st

/-- Run a sequence of operations left to right. -/
def applyOps (st : Stored) (ops : List HistOp) : Stored := ops.foldl applyOp st

/-- The operation touches only paths different from `p`. -/
def avoidsPath (p : String) : HistOp → Prop
  | .save q _ => q ≠ p
  | .remove q => q ≠ p
  | .clear => True

/-- The list persisted under the key (empty for non-array content). -/
def storedItems : Stored → List ProjectHistoryItem
  | .items l => l
  | _ => []

/-- Number of persisted entries. -/
def storedLength (st : Stored) : Nat := (storedItems st).length

example : jsSplit "/Users/alice/x" '/' = ["", "Users", "alice", "x"] := by decide
example : getProjectName "/Users/alice/demo" = "demo" := by decide
example : formatPath "/Users/alice/projects/demo" = "~/projects/demo" := by decide
example : formatPath "C:\\Users\\carol\\proj" = "~\\proj" := by decide
example : jsTrim "  a " = "a" := by decide

/-! ## Helper lemmas -/

/-- An entry carrying an actual timestamp (a well-formed entry for sorting
purposes). -/
def validItem (e : ProjectHistoryItem) : Prop := e.lastUsed.isSome

instance : DecidablePred validItem :=
  fun e => inferInstanceAs (Decidable (e.lastUsed.isSome = true))

/-- The timestamp used by the comparator, defaulting for a missing field. -/
def itemKey (e : ProjectHistoryItem) : Int := e.lastUsed.getD 0

/-- Later-or-equal timestamp first: the globally transitive and total
descending order that the comparator implements on well-formed entries. -/
def timeGe (a b : ProjectHistoryItem) : Prop := itemKey b ≤ itemKey a

instance : DecidableRel timeGe :=
  fun a b => inferInstanceAs (Decidable (itemKey b ≤ itemKey a))

instance : IsTotal ProjectHistoryItem timeGe := ⟨fun a b => le_total (itemKey b) (itemKey a)⟩

instance : IsTrans ProjectHistoryItem timeGe := ⟨fun _ _ _ hab hbc => le_trans hbc hab⟩

theorem loadProjectHistory_eq_sort (st : Stored) :
    loadProjectHistory st = sortItems (storedItems st) := by
  cases st <;> rfl

theorem itemLe_iff_timeGe {a b : ProjectHistoryItem} (ha : validItem a) (hb : validItem b) :
    itemLe a b ↔ timeGe a b := by
  obtain ⟨x, hx⟩ := Option.isSome_iff_exists.mp ha
  obtain ⟨y, hy⟩ := Option.isSome_iff_exists.mp hb
  simp [itemLe, timeGe, jsCompare, itemKey, hx, hy]

theorem orderedInsert_congr {α : Type} {r s : α → α → Prop}
    [DecidableRel r] [DecidableRel s] {a : α} :
    ∀ {l : List α}, (∀ b ∈ l, (r a b ↔ s a b)) →
      l.orderedInsert r a = l.orderedInsert s a
  | [], _ => rfl
  | b :: t, h => by
    have hb : r a b ↔ s a b := h b (List.mem_cons_self b t)
    by_cases hr : r a b
    · rw [List.orderedInsert, List.orderedInsert, if_pos hr, if_pos (hb.mp hr)]
    · rw [List.orderedInsert, List.orderedInsert, if_neg hr, if_neg (fun hs => hr (hb.mpr hs)),
        orderedInsert_congr (fun c hc => h c (List.mem_cons_of_mem b hc))]

theorem insertionSort_congr {α : Type} {r s : α → α → Prop}
    [DecidableRel r] [DecidableRel s] :
    ∀ {l : List α}, (∀ a ∈ l, ∀ b ∈ l, (r a b ↔ s a b)) →
      l.insertionSort r = l.insertionSort s
  | [], _ => rfl
  | a :: t, h => by
    rw [List.insertionSort, List.insertionSort,
      insertionSort_congr (fun x hx y hy =>
        h x (List.mem_cons_of_mem a hx) y (List.mem_cons_of_mem a hy))]
    exact orderedInsert_congr (fun b hb =>
      h a (List.mem_cons_self a t) b
        (List.mem_cons_of_mem a ((List.mem_insertionSort s).mp hb)))

theorem sortItems_eq_timeSort {l : List ProjectHistoryItem}
    (h : ∀ e ∈ l, validItem e) :
    sortItems l = l.insertionSort timeGe :=
  insertionSort_congr (fun a ha b hb => itemLe_iff_timeGe (h a ha) (h b hb))

theorem sortItems_perm (l : List ProjectHistoryItem) : (sortItems l).Perm l :=
  List.perm_insertionSort itemLe l

theorem sortItems_sorted {l : List ProjectHistoryItem}
    (h : ∀ e ∈ l, validItem e) :
    List.Sorted timeGe (sortItems l) := by
  rw [sortItems_eq_timeSort h]
  exact List.sorted_insertionSort timeGe l

theorem sortItems_of_sorted {l : List ProjectHistoryItem}
    (hs : List.Sorted timeGe l) (h : ∀ e ∈ l, validItem e) :
    sortItems l = l := by
  rw [sortItems_eq_timeSort h]
  exact hs.insertionSort_eq

theorem itemLe_newHistoryItem {p : String} {t : Int} {b : ProjectHistoryItem}
    (hb : ∀ u, b.lastUsed = some u → u ≤ t) :
    itemLe (newHistoryItem p t) b := by
  unfold itemLe jsCompare newHistoryItem
  cases hbu : b.lastUsed with
  | none => simp
  | some u => simpa using hb u hbu

theorem saveProjectToHistory_eq {p : String} (h : jsTrim p ≠ "") (t : Int) (st : Stored) :
    saveProjectToHistory p t st =
      .items ((newHistoryItem p t ::
        (loadProjectHistory st).filter (fun e => e.path ≠ some p)).take
          MAX_HISTORY_ITEMS) := by
  have hp : ¬(p = "" ∨ jsTrim p = "") := by
    rintro (rfl | hh)
    · exact h rfl
    · exact h hh
  unfold saveProjectToHistory
  rw [if_neg hp]

theorem dropWhile_idem {α : Type} (p : α → Bool) (l : List α) :
    (l.dropWhile p).dropWhile p = l.dropWhile p := by
  induction l with
  | nil => rfl
  | cons a t ih =>
    rw [List.dropWhile_cons]
    by_cases h : p a
    · rw [if_pos h, ih]
    · rw [if_neg h, List.dropWhile_cons, if_neg h]

theorem dropWhile_head?_false {α : Type} (p : α → Bool) (l : List α) :
    ∀ c, (l.dropWhile p).head? = some c → p c = false := by
  induction l with
  | nil => intro c h; simp at h
  | cons a t ih =>
    intro c h
    rw [List.dropWhile_cons] at h
    by_cases hp : p a
    · rw [if_pos hp] at h; exact ih c h
    · rw [if_neg hp] at h
      simp only [List.head?_cons, Option.some.injEq] at h
      subst h
      exact Bool.eq_false_iff.mpr hp

theorem dropWhile_eq_self_of_head? {α : Type} (p : α → Bool) (l : List α)
    (h : ∀ c, l.head? = some c → p c = false) : l.dropWhile p = l := by
  cases l with
  | nil => rfl
  | cons a t =>
    rw [List.dropWhile_cons, if_neg]
    simp [h a rfl]

theorem trimChars_idem (l : List Char) : trimChars (trimChars l) = trimChars l := by
  unfold trimChars
  have hstep1 :
      (((l.dropWhile Char.isWhitespace).reverse.dropWhile Char.isWhitespace).reverse).dropWhile
        Char.isWhitespace =
      ((l.dropWhile Char.isWhitespace).reverse.dropWhile Char.isWhitespace).reverse := by
    apply dropWhile_eq_self_of_head?
    intro c hc
    rw [List.head?_reverse] at hc
    obtain ⟨t, ht⟩ :=
      List.dropWhile_suffix (l := (l.dropWhile Char.isWhitespace).reverse) Char.isWhitespace
    by_cases hBe :
        (l.dropWhile Char.isWhitespace).reverse.dropWhile Char.isWhitespace = []
    · rw [hBe] at hc; simp at hc
    · have h2 := List.getLast?_append_of_ne_nil t hBe
      rw [ht] at h2
      have h3 : (l.dropWhile Char.isWhitespace).head? = some c := by
        rw [← List.getLast?_reverse]
        exact h2.trans hc
      exact dropWhile_head?_false Char.isWhitespace l c h3
  rw [hstep1, List.reverse_reverse, dropWhile_idem]

theorem jsTrim_idem (s : String) : jsTrim (jsTrim s) = jsTrim s := by
  unfold jsTrim
  rw [show (String.mk (trimChars s.data)).data = trimChars s.data from rfl, trimChars_idem]

/-! ## Claim theorems -/

/-- C7: for every storage state and every path that is empty or whitespace-only
(equivalently, whose trim is empty — the guard `!path || path.trim() === ''`),
`saveProjectToHistory` is a no-op: the persisted content is left completely
unchanged. -/
theorem save_blank_is_noop (p : String) (t : Int) (st : Stored) (h : jsTrim p = "") :
    saveProjectToHistory p t st = st := by
  unfold saveProjectToHistory
  rw [if_pos (Or.inr h)]

/-- C7 witness: saving a whitespace-only path over a concrete store leaves the
store unchanged. -/
theorem save_blank_is_noop_witness :
    saveProjectToHistory "  " 5 (.items [⟨some "/x", some 1, some "x"⟩]) =
      .items [⟨some "/x", some 1, some "x"⟩] :=
  save_blank_is_noop "  " 5 (.items [⟨some "/x", some 1, some "x"⟩]) (by decide)

/-- C4 counterexample: the stored content `[{}]` parses to an array whose sole
element is not a valid history entry (every field missing), yet
`loadProjectHistory` returns that element rather than the empty list — the
code performs no per-element validation after the unchecked cast, so the claim
that such content loads as an empty sequence is false. -/
theorem load_invalid_entry_cex :
    loadProjectHistory (.items [⟨none, none, none⟩]) = [⟨none, none, none⟩] ∧
      ([⟨none, none, none⟩] : List ProjectHistoryItem) ≠ [] :=
  ⟨rfl, by decide⟩

/-- C4 (amended): `loadProjectHistory` returns the empty sequence when the
stored content is absent, empty, fails to parse, or parses to a non-array
value; a parsed array is returned (as a permutation of its elements) without
any per-element validation; no case raises to the caller (the embedding is a
total function). -/
theorem load_malformed_returns_empty :
    (∀ st : Stored,
        st = .absent ∨ st = .emptyStr ∨ st = .unparseable ∨ st = .nonArray →
        loadProjectHistory st = []) ∧
      (∀ l, (loadProjectHistory (.items l)).Perm l) := by
  constructor
  · rintro st (rfl | rfl | rfl | rfl) <;> rfl
  · exact fun l => sortItems_perm l

/-- C4 witness: content on which `JSON.parse` throws loads as the empty
sequence. -/
theorem load_malformed_returns_empty_witness :
    loadProjectHistory .unparseable = [] :=
  load_malformed_returns_empty.1 .unparseable (Or.inr (Or.inr (Or.inl rfl)))

/-- Name derivation exactly as the spec words it: split the path on the
separator, discard empty segments, take the last remaining segment, with the
fixed fallback when no segment remains. -/
def specDeriveName (path : String) : String :=
  (((jsSplit path '/').filter (fun s => s ≠ "")).getLast?).getD "Unknown Project"

/-- C8: `getProjectName` computes exactly the spec's derivation — split on the
path separator, discard empty segments, take the last remaining segment,
fallback `"Unknown Project"` — and the spec's examples evaluate as stated. -/
theorem getProjectName_correct :
    (∀ p, getProjectName p = specDeriveName p) ∧
      getProjectName "/Users/alice/projects/demo" = "demo" ∧
      getProjectName "/" = "Unknown Project" ∧
      getProjectName "" = "Unknown Project" := by
  refine ⟨fun p => ?_, by decide, by decide, by decide⟩
  show (match ((jsSplit p '/').filter (fun s => s ≠ "")).getLast? with
    | none => "Unknown Project"
    | some s => if s = "" then "Unknown Project" else s) =
    (((jsSplit p '/').filter (fun s => s ≠ "")).getLast?).getD "Unknown Project"
  cases hl : ((jsSplit p '/').filter (fun s => s ≠ "")).getLast? with
  | none => rfl
  | some s =>
    obtain ⟨hne, heq⟩ := List.mem_getLast?_eq_getLast (Option.mem_def.mpr hl)
    have hmem : s ∈ (jsSplit p '/').filter (fun s => s ≠ "") :=
      heq ▸ List.getLast_mem hne
    have hs : s ≠ "" := by simpa using (List.mem_filter.mp hmem).2
    simp [hs]

/-- C3: for every stored array of history entries (each entry carrying a
timestamp), `loadProjectHistory` returns a permutation of the entries that is
sorted by `lastUsed` descending (most recent first), regardless of the order
in which they were stored. -/
theorem load_sorted_descending (l : List ProjectHistoryItem)
    (hv : ∀ e ∈ l, validItem e) :
    (loadProjectHistory (.items l)).Perm l ∧
      (loadProjectHistory (.items l)).Pairwise
        (fun a b => ∀ x y, a.lastUsed = some x → b.lastUsed = some y → y ≤ x) := by
  constructor
  · exact sortItems_perm l
  · refine List.Pairwise.imp ?_ (sortItems_sorted hv)
    intro a b hab x y hx hy
    unfold timeGe itemKey at hab
    rw [hx, hy] at hab
    simpa using hab

/-- C3 witness: a store holding entries in ascending order loads as a
permutation of them (and, per the theorem, sorted descending). -/
theorem load_sorted_descending_witness :
    (loadProjectHistory
      (.items [⟨some "/a", some 1, some "a"⟩, ⟨some "/b", some 5, some "b"⟩])).Perm
      [⟨some "/a", some 1, some "a"⟩, ⟨some "/b", some 5, some "b"⟩] :=
  (load_sorted_descending
    [⟨some "/a", some 1, some "a"⟩, ⟨some "/b", some 5, some "b"⟩] (by decide)).1

/-- C5: after `removeProjectFromHistory p`, no loaded entry has path `p`; and
when no entry with path `p` was present (the entries being well-formed),
removal is a no-op: `load` before equals `load` after, and no error is
raised (the embedding is total). -/
theorem remove_removes_path (p : String) (st : Stored) :
    (∀ e ∈ loadProjectHistory (removeProjectFromHistory p st), e.path ≠ some p) ∧
      ((∀ e ∈ loadProjectHistory st, validItem e) →
        (∀ e ∈ loadProjectHistory st, e.path ≠ some p) →
        loadProjectHistory (removeProjectFromHistory p st) = loadProjectHistory st) := by
  constructor
  · intro e he
    have h1 : e ∈ (loadProjectHistory st).filter (fun item => item.path ≠ some p) :=
      (sortItems_perm ((loadProjectHistory st).filter
        (fun item => item.path ≠ some p))).mem_iff.mp he
    simpa using List.of_mem_filter h1
  · intro hv hnp
    have hfl : (loadProjectHistory st).filter (fun item => item.path ≠ some p) =
        loadProjectHistory st :=
      List.filter_eq_self.mpr (fun a ha => by simpa using hnp a ha)
    show sortItems ((loadProjectHistory st).filter (fun item => item.path ≠ some p)) = _
    rw [hfl, loadProjectHistory_eq_sort st]
    have hv0 : ∀ e ∈ storedItems st, validItem e := by
      intro e he
      refine hv e ?_
      rw [loadProjectHistory_eq_sort st]
      exact ((sortItems_perm (storedItems st)).mem_iff).mpr he
    exact sortItems_of_sorted (sortItems_sorted hv0)
      (fun e he => hv0 e ((sortItems_perm (storedItems st)).mem_iff.mp he))

/-- C5 witness: removing a path that is not present leaves the loaded sequence
unchanged. -/
theorem remove_removes_path_witness :
    loadProjectHistory (removeProjectFromHistory "/a"
      (.items [⟨some "/b", some 1, some "b"⟩])) =
    loadProjectHistory (.items [⟨some "/b", some 1, some "b"⟩]) :=
  (remove_removes_path "/a" (.items [⟨some "/b", some 1, some "b"⟩])).2
    (by decide) (by decide)

/-- C1: saving path `p`, then any sequence of operations on other paths, then
saving `p` again at a time at least as late as every timestamp then present,
yields exactly one loaded entry with path `p`; that entry sits first in the
loaded sequence and carries the second save's time — re-adding an existing
path never duplicates it. -/
theorem save_twice_single_entry (st0 : Stored) (p : String) (t1 : Int)
    (ops : List HistOp) (t2 : Int)
    (hp : jsTrim p ≠ "")
    (_hops : ∀ op ∈ ops, avoidsPath p op)
    (hlatest : ∀ e ∈ loadProjectHistory (applyOps (saveProjectToHistory p t1 st0) ops),
      ∀ u, e.lastUsed = some u → u ≤ t2) :
    ((loadProjectHistory (saveProjectToHistory p t2
        (applyOps (saveProjectToHistory p t1 st0) ops))).countP
          (fun e => e.path = some p) = 1) ∧
      (loadProjectHistory (saveProjectToHistory p t2
        (applyOps (saveProjectToHistory p t1 st0) ops))).head? =
        some (newHistoryItem p t2) := by
  set st2 := applyOps (saveProjectToHistory p t1 st0) ops with hst2
  set F := (loadProjectHistory st2).filter (fun e => e.path ≠ some p) with hF
  have htake : (newHistoryItem p t2 :: F).take MAX_HISTORY_ITEMS
      = newHistoryItem p t2 :: F.take 9 := by
    show (newHistoryItem p t2 :: F).take (9 + 1) = _
    rw [List.take_succ_cons]
  have hFmem : ∀ b ∈ F.take 9, itemLe (newHistoryItem p t2) b := by
    intro b hb
    apply itemLe_newHistoryItem
    intro u hu
    exact hlatest b (List.mem_of_mem_filter (List.take_subset 9 F hb)) u hu
  have hsorted : loadProjectHistory (saveProjectToHistory p t2 st2)
      = newHistoryItem p t2 :: sortItems (F.take 9) := by
    rw [saveProjectToHistory_eq hp t2 st2]
    show sortItems ((newHistoryItem p t2 :: F).take MAX_HISTORY_ITEMS) = _
    rw [htake]
    exact List.insertionSort_cons itemLe hFmem
  constructor
  · rw [hsorted, List.countP_cons_of_pos _ _ (by simp [newHistoryItem]),
      (sortItems_perm (F.take 9)).countP_eq]
    have h0 : (F.take 9).countP (fun e => e.path = some p) = 0 := by
      rw [List.countP_eq_zero]
      intro a ha
      have hne := List.of_mem_filter (List.take_subset 9 F ha)
      simp only [decide_eq_true_eq] at hne ⊢
      exact hne
    rw [h0]
  · rw [hsorted, List.head?_cons]

/-- C1 witness: a concrete double save of `/a` (times 1 then 2, no operations
in between) yields a single `/a` entry, first, with time 2. -/
theorem save_twice_single_entry_witness :
    ((loadProjectHistory (saveProjectToHistory "/a" 2
        (applyOps (saveProjectToHistory "/a" 1 .absent) []))).countP
          (fun e => e.path = some "/a") = 1) ∧
      (loadProjectHistory (saveProjectToHistory "/a" 2
        (applyOps (saveProjectToHistory "/a" 1 .absent) []))).head? =
        some (newHistoryItem "/a" 2) := by
  refine save_twice_single_entry .absent "/a" 1 [] 2 (by decide)
    (fun op h => absurd h (List.not_mem_nil op)) ?_
  intro e he u hu
  have hl : loadProjectHistory (applyOps (saveProjectToHistory "/a" 1 Stored.absent) [])
      = [newHistoryItem "/a" 1] := by decide
  rw [hl] at he
  simp only [List.mem_singleton] at he
  subst he
  simp only [newHistoryItem] at hu
  simp only [Option.some.injEq] at hu
  omega

/-- C6: `getMostRecentProject` returns the path of the first entry of
`loadProjectHistory`, or nothing when the loaded sequence is empty; and in the
concrete scenario — insert `A` at time 1 then `B` at time 2 — it returns `B`,
and after removing `B` it returns `A`. -/
theorem mostRecent_is_first :
    (∀ st : Stored, loadProjectHistory st = [] → getMostRecentProject st = none) ∧
      (∀ (st : Stored) (e : ProjectHistoryItem) (rest : List ProjectHistoryItem),
        loadProjectHistory st = e :: rest → getMostRecentProject st = e.path) ∧
      (∀ A B : String, jsTrim A ≠ "" → jsTrim B ≠ "" → A ≠ B →
        getMostRecentProject (saveProjectToHistory B 2 (saveProjectToHistory A 1 .absent))
            = some B ∧
          getMostRecentProject (removeProjectFromHistory B
            (saveProjectToHistory B 2 (saveProjectToHistory A 1 .absent))) = some A) := by
  refine ⟨?_, ?_, ?_⟩
  · intro st h
    unfold getMostRecentProject
    rw [h]
  · intro st e rest h
    unfold getMostRecentProject
    rw [h]
  · intro A B hA hB hAB
    have h1 : saveProjectToHistory A 1 .absent = .items [newHistoryItem A 1] := by
      rw [saveProjectToHistory_eq hA 1 .absent]
      rfl
    have h2 : saveProjectToHistory B 2 (.items [newHistoryItem A 1])
        = .items [newHistoryItem B 2, newHistoryItem A 1] := by
      rw [saveProjectToHistory_eq hB 2 (.items [newHistoryItem A 1])]
      have hfil : ([newHistoryItem A 1]).filter (fun item => item.path ≠ some B)
          = [newHistoryItem A 1] := by
        rw [List.filter_eq_self]
        intro a ha
        simp only [List.mem_singleton] at ha
        subst ha
        simpa [newHistoryItem] using hAB
      rw [show loadProjectHistory (Stored.items [newHistoryItem A 1])
          = [newHistoryItem A 1] from rfl, hfil]
      rfl
    have hload2 : loadProjectHistory (.items [newHistoryItem B 2, newHistoryItem A 1])
        = [newHistoryItem B 2, newHistoryItem A 1] := rfl
    constructor
    · rw [h1, h2]
      unfold getMostRecentProject
      rw [hload2]
      rfl
    · rw [h1, h2]
      have h3 : removeProjectFromHistory B
          (.items [newHistoryItem B 2, newHistoryItem A 1])
          = .items [newHistoryItem A 1] := by
        unfold removeProjectFromHistory
        rw [hload2]
        have hfil2 : ([newHistoryItem B 2, newHistoryItem A 1]).filter
            (fun item => item.path ≠ some B) = [newHistoryItem A 1] := by
          simp [List.filter, newHistoryItem, hAB]
        rw [hfil2]
      rw [h3]
      unfold getMostRecentProject
      rfl

/-- C6 witness: the concrete A/B scenario with paths `/a` and `/b`. -/
theorem mostRecent_is_first_witness :
    getMostRecentProject (saveProjectToHistory "/b" 2
        (saveProjectToHistory "/a" 1 .absent)) = some "/b" ∧
      getMostRecentProject (removeProjectFromHistory "/b"
        (saveProjectToHistory "/b" 2 (saveProjectToHistory "/a" 1 .absent))) = some "/a" :=
  mostRecent_is_first.2.2 "/a" "/b" (by decide) (by decide) (by decide)

/-- C10: a save of a path containing a non-whitespace character stores the
path verbatim — the persisted head entry holds exactly the given string — and
a path with surrounding whitespace is a distinct key from its trimmed form:
saving the trimmed form afterwards adds a second entry instead of replacing
the first. -/
theorem save_stores_path_verbatim :
    (∀ (p : String) (t : Int) (st : Stored), jsTrim p ≠ "" →
        (storedItems (saveProjectToHistory p t st)).head?
          = some ⟨some p, some t, some (getProjectName p)⟩) ∧
      (∀ (p : String) (t1 t2 : Int), jsTrim p ≠ "" → p ≠ jsTrim p →
        storedItems (saveProjectToHistory (jsTrim p) t2
            (saveProjectToHistory p t1 .absent))
          = [newHistoryItem (jsTrim p) t2, newHistoryItem p t1]) := by
  constructor
  · intro p t st hp
    rw [saveProjectToHistory_eq hp t st]
    simp only [storedItems]
    rw [show MAX_HISTORY_ITEMS = 9 + 1 from rfl, List.take_succ_cons, List.head?_cons]
    rfl
  · intro p t1 t2 hp hne
    have htrim : jsTrim (jsTrim p) ≠ "" := by rw [jsTrim_idem]; exact hp
    have h1 : saveProjectToHistory p t1 .absent = .items [newHistoryItem p t1] := by
      rw [saveProjectToHistory_eq hp t1 .absent]
      rfl
    rw [h1, saveProjectToHistory_eq htrim t2 (.items [newHistoryItem p t1])]
    have hfil : ([newHistoryItem p t1]).filter
        (fun item => item.path ≠ some (jsTrim p)) = [newHistoryItem p t1] := by
      rw [List.filter_eq_self]
      intro a ha
      simp only [List.mem_singleton] at ha
      subst ha
      simpa [newHistoryItem] using hne
    rw [show loadProjectHistory (Stored.items [newHistoryItem p t1])
        = [newHistoryItem p t1] from rfl, hfil]
    rfl

/-- C10 witness: `" /a"` (leading space) and its trimmed form `"/a"` coexist
as two distinct entries. -/
theorem save_stores_path_verbatim_witness :
    storedItems (saveProjectToHistory (jsTrim " /a") 2
        (saveProjectToHistory " /a" 1 .absent))
      = [newHistoryItem (jsTrim " /a") 2, newHistoryItem " /a" 1] :=
  save_stores_path_verbatim.2 " /a" 1 2 (by decide) (by decide)

/-- The save operations for a list of (path, time) pairs, in order. -/
def savesOf (ps : List (String × Int)) : List HistOp :=
  ps.map (fun q => HistOp.save q.1 q.2)

theorem validItem_newHistoryItem (p : String) (t : Int) :
    validItem (newHistoryItem p t) := rfl

theorem timeGe_newHistoryItem {a b : String × Int} (h : b.2 ≤ a.2) :
    timeGe (newHistoryItem a.1 a.2) (newHistoryItem b.1 b.2) := by
  unfold timeGe itemKey newHistoryItem
  simpa using h

/-- Saving distinct nontrivial paths at strictly increasing times into an
empty store leaves exactly the last `MAX_HISTORY_ITEMS` saves, newest first. -/
theorem applyOps_saves_shape (ps : List (String × Int))
    (hnt : ∀ q ∈ ps, jsTrim q.1 ≠ "")
    (hdist : ps.Pairwise (fun a b => a.1 ≠ b.1))
    (hinc : ps.Pairwise (fun a b => a.2 < b.2)) :
    storedItems (applyOps .absent (savesOf ps))
      = (ps.reverse.map (fun q => newHistoryItem q.1 q.2)).take MAX_HISTORY_ITEMS := by
  induction ps using List.reverseRecOn with
  | nil => rfl
  | append_singleton ps q ih =>
    have hnt' : ∀ r ∈ ps, jsTrim r.1 ≠ "" :=
      fun r hr => hnt r (List.mem_append_left _ hr)
    have hq : jsTrim q.1 ≠ "" :=
      hnt q (List.mem_append_right _ (List.mem_singleton_self q))
    rw [List.pairwise_append] at hdist hinc
    obtain ⟨hdist1, _, hdist3⟩ := hdist
    obtain ⟨hinc1, _, _⟩ := hinc
    have hih := ih hnt' hdist1 hinc1
    have hsv : savesOf (ps ++ [q]) = savesOf ps ++ [HistOp.save q.1 q.2] := by
      unfold savesOf
      rw [List.map_append]
      rfl
    rw [hsv]
    rw [show applyOps Stored.absent (savesOf ps ++ [HistOp.save q.1 q.2])
        = applyOp (applyOps Stored.absent (savesOf ps)) (HistOp.save q.1 q.2) from by
      unfold applyOps
      rw [List.foldl_append]
      rfl]
    show storedItems (saveProjectToHistory q.1 q.2
      (applyOps Stored.absent (savesOf ps))) = _
    rw [saveProjectToHistory_eq hq q.2 _]
    simp only [storedItems]
    have hrev : ps.reverse.Pairwise (fun a b => b.2 < a.2) :=
      List.pairwise_reverse.mpr hinc1
    have hmap : (ps.reverse.map (fun r => newHistoryItem r.1 r.2)).Pairwise timeGe :=
      hrev.map (fun r => newHistoryItem r.1 r.2)
        (fun _ _ hab => timeGe_newHistoryItem (le_of_lt hab))
    have hLsorted : List.Sorted timeGe
        ((ps.reverse.map (fun r => newHistoryItem r.1 r.2)).take MAX_HISTORY_ITEMS) :=
      List.Pairwise.sublist (List.take_sublist _ _) hmap
    have hLvalid : ∀ e ∈ (ps.reverse.map
        (fun r => newHistoryItem r.1 r.2)).take MAX_HISTORY_ITEMS, validItem e := by
      intro e he
      obtain ⟨r, _, rfl⟩ := List.mem_map.mp (List.take_subset _ _ he)
      exact validItem_newHistoryItem _ _
    have hload : loadProjectHistory (applyOps Stored.absent (savesOf ps))
        = (ps.reverse.map (fun r => newHistoryItem r.1 r.2)).take MAX_HISTORY_ITEMS := by
      rw [loadProjectHistory_eq_sort, hih]
      exact sortItems_of_sorted hLsorted hLvalid
    rw [hload]
    have hfilter : ((ps.reverse.map (fun r => newHistoryItem r.1 r.2)).take
        MAX_HISTORY_ITEMS).filter (fun e => e.path ≠ some q.1)
        = (ps.reverse.map (fun r => newHistoryItem r.1 r.2)).take MAX_HISTORY_ITEMS := by
      rw [List.filter_eq_self]
      intro a ha
      obtain ⟨r, hr, rfl⟩ := List.mem_map.mp (List.take_subset _ _ ha)
      have hne : r.1 ≠ q.1 :=
        hdist3 r (List.mem_reverse.mp hr) q (List.mem_singleton_self q)
      simpa [newHistoryItem] using hne
    rw [hfilter]
    rw [show MAX_HISTORY_ITEMS = 9 + 1 from rfl, List.take_succ_cons]
    simp only [List.reverse_append, List.reverse_singleton, List.singleton_append,
      List.map_cons, List.take_succ_cons]
    rw [List.take_take]
    norm_num

/-- C2: every operation preserves the bound of at most `MAX_HISTORY_ITEMS`
(= 10) persisted entries; and saving 11 distinct nontrivial paths at strictly
increasing times into an empty store leaves exactly 10 entries — the 11th
save evicts the first-saved path, which (times being increasing) is the
unique entry with the smallest `lastUsed` among the original 10, while every
other saved path remains with its own time. -/
theorem history_bounded :
    (∀ (st : Stored) (op : HistOp),
        storedLength st ≤ MAX_HISTORY_ITEMS →
        storedLength (applyOp st op) ≤ MAX_HISTORY_ITEMS) ∧
      (∀ ps : List (String × Int), ps.length = 11 →
        (∀ q ∈ ps, jsTrim q.1 ≠ "") →
        ps.Pairwise (fun a b => a.1 ≠ b.1) →
        ps.Pairwise (fun a b => a.2 < b.2) →
        storedLength (applyOps .absent (savesOf ps)) = MAX_HISTORY_ITEMS ∧
          (∀ q0, ps.head? = some q0 →
            ∀ e ∈ loadProjectHistory (applyOps .absent (savesOf ps)),
              e.path ≠ some q0.1) ∧
          (∀ q ∈ ps.tail, ∃ e ∈ loadProjectHistory (applyOps .absent (savesOf ps)),
            e.path = some q.1 ∧ e.lastUsed = some q.2)) := by
  constructor
  · intro st op hb
    cases op with
    | save p t =>
      by_cases hp : p = "" ∨ jsTrim p = ""
      · show storedLength (saveProjectToHistory p t st) ≤ _
        unfold saveProjectToHistory
        rw [if_pos hp]
        exact hb
      · have hp' : jsTrim p ≠ "" := (not_or.mp hp).2
        show storedLength (saveProjectToHistory p t st) ≤ _
        rw [saveProjectToHistory_eq hp' t st]
        unfold storedLength
        simp only [storedItems]
        exact List.length_take_le _ _
    | remove p =>
      show storedLength (removeProjectFromHistory p st) ≤ _
      unfold removeProjectFromHistory storedLength
      simp only [storedItems]
      calc (List.filter (fun item => item.path ≠ some p)
            (loadProjectHistory st)).length
          ≤ (loadProjectHistory st).length := List.length_filter_le _ _
        _ = (storedItems st).length := by
            rw [loadProjectHistory_eq_sort]
            exact (sortItems_perm _).length_eq
        _ ≤ MAX_HISTORY_ITEMS := hb
    | clear => exact Nat.zero_le MAX_HISTORY_ITEMS
  · intro ps hlen hnt hdist hinc
    have hshape := applyOps_saves_shape ps hnt hdist hinc
    obtain ⟨q0, rest, rfl⟩ : ∃ q0 rest, ps = q0 :: rest := by
      cases ps with
      | nil => simp at hlen
      | cons a t => exact ⟨a, t, rfl⟩
    have hrlen : rest.length = 10 := by simpa using hlen
    have hmaplen : (rest.reverse.map (fun q => newHistoryItem q.1 q.2)).length
        = MAX_HISTORY_ITEMS := by
      simp [hrlen, MAX_HISTORY_ITEMS]
    have htake : ((q0 :: rest).reverse.map
        (fun q => newHistoryItem q.1 q.2)).take MAX_HISTORY_ITEMS
        = rest.reverse.map (fun q => newHistoryItem q.1 q.2) := by
      rw [show (q0 :: rest).reverse = rest.reverse ++ [q0] by simp, List.map_append]
      exact List.take_left' hmaplen
    have hstored : storedItems (applyOps Stored.absent (savesOf (q0 :: rest)))
        = rest.reverse.map (fun q => newHistoryItem q.1 q.2) := by
      rw [hshape, htake]
    refine ⟨?_, ?_, ?_⟩
    · unfold storedLength
      rw [hstored, hmaplen]
    · intro q0' hq0 e he
      simp only [List.head?_cons, Option.some.injEq] at hq0
      rw [← hq0]
      rw [loadProjectHistory_eq_sort] at he
      have he' := (sortItems_perm _).mem_iff.mp he
      rw [hstored] at he'
      obtain ⟨r, hr, rfl⟩ := List.mem_map.mp he'
      have hne : q0.1 ≠ r.1 :=
        (List.pairwise_cons.mp hdist).1 r (List.mem_reverse.mp hr)
      simp only [newHistoryItem, ne_eq, Option.some.injEq]
      exact fun h => hne h.symm
    · intro q hq
      refine ⟨newHistoryItem q.1 q.2, ?_, rfl, rfl⟩
      rw [loadProjectHistory_eq_sort]
      apply (sortItems_perm _).mem_iff.mpr
      rw [hstored]
      exact List.mem_map.mpr ⟨q, List.mem_reverse.mpr hq, rfl⟩

/-- Eleven concrete distinct paths at strictly increasing times. -/
def elevenSaves : List (String × Int) :=
  [("/p0", 0), ("/p1", 1), ("/p2", 2), ("/p3", 3), ("/p4", 4), ("/p5", 5),
    ("/p6", 6), ("/p7", 7), ("/p8", 8), ("/p9", 9), ("/p10", 10)]

/-- C2 witness: a concrete save respects the bound, and the eleven concrete
saves leave exactly `MAX_HISTORY_ITEMS` entries. -/
theorem history_bounded_witness :
    storedLength (applyOp (.items []) (.save "/a" 0)) ≤ MAX_HISTORY_ITEMS ∧
      storedLength (applyOps .absent (savesOf elevenSaves)) = MAX_HISTORY_ITEMS :=
  ⟨history_bounded.1 (.items []) (.save "/a" 0) (by decide),
    (history_bounded.2 elevenSaves (by decide) (by decide) (by decide) (by decide)).1⟩

/-! ## Character-level lemmas for the universal `formatPath` statements -/

theorem splitChar_ne_nil (sep : Char) (l : List Char) : splitChar sep l ≠ [] := by
  cases l with
  | nil => simp [splitChar]
  | cons c rest =>
    unfold splitChar
    split
    · simp
    · split <;> simp

theorem splitChar_sep_cons (sep : Char) (l : List Char) :
    splitChar sep (sep :: l) = [] :: splitChar sep l := by
  rw [splitChar]
  cases h : splitChar sep l with
  | nil => exact absurd h (splitChar_ne_nil sep l)
  | cons g gs => simp

theorem splitChar_append_no_sep {sep : Char} :
    ∀ (u : List Char), (∀ ch ∈ u, ch ≠ sep) →
      ∀ (l g : List Char) (gs : List (List Char)),
        splitChar sep l = g :: gs → splitChar sep (u ++ l) = (u ++ g) :: gs := by
  intro u
  induction u with
  | nil =>
    intro _ l g gs h
    simpa using h
  | cons a u' ih =>
    intro hu l g gs h
    have ha : a ≠ sep := hu a (List.mem_cons_self a u')
    have ih' := ih (fun ch hch => hu ch (List.mem_cons_of_mem a hch)) l g gs h
    rw [List.cons_append]
    unfold splitChar
    rw [ih']
    simp [ha]

theorem splitChar_no_sep {sep : Char} (u : List Char) (hu : ∀ ch ∈ u, ch ≠ sep) :
    splitChar sep u = [u] := by
  have h := splitChar_append_no_sep u hu [] [] [] rfl
  simpa using h

theorem splitChar_group {sep : Char} (u : List Char) (hu : ∀ ch ∈ u, ch ≠ sep)
    (l : List Char) :
    splitChar sep (u ++ sep :: l) = u :: splitChar sep l := by
  cases h : splitChar sep l with
  | nil => exact absurd h (splitChar_ne_nil sep l)
  | cons g gs =>
    have h1 : splitChar sep (sep :: l) = [] :: g :: gs := by
      rw [splitChar_sep_cons, h]
    have h2 := splitChar_append_no_sep u hu (sep :: l) [] (g :: gs) h1
    rw [h2, List.append_nil]

theorem beginsWith_append : ∀ (xs ys : List Char), beginsWith (xs ++ ys) xs = true := by
  intro xs ys
  induction xs with
  | nil => cases ys <;> rfl
  | cons a as ih => simp [beginsWith, ih]

theorem beginsWith_cons_cons (a b : Char) (as bs : List Char) :
    beginsWith (a :: as) (b :: bs) = (decide (a = b) && beginsWith as bs) := rfl

theorem replaceFirstChars_of_beginsWith {pat repl s : List Char}
    (h : beginsWith s pat = true) :
    replaceFirstChars pat repl s = repl ++ s.drop pat.length := by
  cases s with
  | nil =>
    unfold replaceFirstChars
    rw [if_pos h]
    simp
  | cons c s' =>
    unfold replaceFirstChars
    rw [if_pos h]

theorem jsReplaceFirst_append (pre rest repl : String) :
    jsReplaceFirst (pre ++ rest) pre repl = repl ++ rest := by
  unfold jsReplaceFirst
  rw [show (pre ++ rest).data = pre.data ++ rest.data from rfl,
    replaceFirstChars_of_beginsWith (beginsWith_append pre.data rest.data),
    List.drop_left]
  rfl

theorem splitChar_head_group {sep : Char} {u rest : String}
    (hu : ∀ ch ∈ u.data, ch ≠ sep)
    (hrest : rest = "" ∨ rest.data.head? = some sep) :
    ∃ T, splitChar sep (u.data ++ rest.data) = u.data :: T := by
  rcases hrest with hrest | hrest
  · subst hrest
    refine ⟨[], ?_⟩
    rw [show ("" : String).data = [] from rfl, List.append_nil,
      splitChar_no_sep u.data hu]
  · cases hr : rest.data with
    | nil => rw [hr] at hrest; simp at hrest
    | cons c r' =>
      rw [hr] at hrest
      simp only [List.head?_cons, Option.some.injEq] at hrest
      refine ⟨splitChar sep r', ?_⟩
      rw [hrest]
      exact splitChar_group u.data hu r'

theorem formatPath_users_branch (u rest : String) (hu : u ≠ "")
    (huc : ∀ ch ∈ u.data, ch ≠ '/')
    (hrest : rest = "" ∨ rest.data.head? = some '/') :
    formatPath ("/Users/" ++ u ++ rest) = "~" ++ rest := by
  obtain ⟨T, hT⟩ := splitChar_head_group huc hrest
  have hshape : ("/Users/" ++ u ++ rest).data
      = '/' :: ("Users".data ++ ('/' :: (u.data ++ rest.data))) := by
    rw [show (("/Users/" ++ u) ++ rest).data
        = ("/Users/".data ++ u.data) ++ rest.data from rfl, List.append_assoc]
    rfl
  have husername : (jsSplit ("/Users/" ++ u ++ rest) '/').getD 2 "" = u := by
    unfold jsSplit
    rw [hshape, splitChar_sep_cons, splitChar_group "Users".data (by decide), hT]
    rfl
  have hstart : jsStartsWith ("/Users/" ++ u ++ rest) "/Users/" = true := by
    unfold jsStartsWith
    rw [show (("/Users/" ++ u) ++ rest).data
        = "/Users/".data ++ (u.data ++ rest.data) from by
      rw [show (("/Users/" ++ u) ++ rest).data
          = ("/Users/".data ++ u.data) ++ rest.data from rfl, List.append_assoc]]
    exact beginsWith_append "/Users/".data (u.data ++ rest.data)
  have hrepl : jsReplaceFirst ("/Users/" ++ u ++ rest) ("/Users/" ++ u) "~"
      = "~" ++ rest :=
    jsReplaceFirst_append ("/Users/" ++ u) rest "~"
  simp only [formatPath, hstart, if_true, husername, ne_eq, hu, not_false_iff,
    ite_true, hrepl]

theorem formatPath_home_branch (u rest : String) (hu : u ≠ "")
    (huc : ∀ ch ∈ u.data, ch ≠ '/')
    (hrest : rest = "" ∨ rest.data.head? = some '/') :
    formatPath ("/home/" ++ u ++ rest) = "~" ++ rest := by
  obtain ⟨T, hT⟩ := splitChar_head_group huc hrest
  have hnotmac : jsStartsWith ("/home/" ++ u ++ rest) "/Users/" = false := rfl
  have hshape : ("/home/" ++ u ++ rest).data
      = '/' :: ("home".data ++ ('/' :: (u.data ++ rest.data))) := by
    rw [show (("/home/" ++ u) ++ rest).data
        = ("/home/".data ++ u.data) ++ rest.data from rfl, List.append_assoc]
    rfl
  have husername : (jsSplit ("/home/" ++ u ++ rest) '/').getD 2 "" = u := by
    unfold jsSplit
    rw [hshape, splitChar_sep_cons, splitChar_group "home".data (by decide), hT]
    rfl
  have hstart : jsStartsWith ("/home/" ++ u ++ rest) "/home/" = true := by
    unfold jsStartsWith
    rw [show (("/home/" ++ u) ++ rest).data
        = "/home/".data ++ (u.data ++ rest.data) from by
      rw [show (("/home/" ++ u) ++ rest).data
          = ("/home/".data ++ u.data) ++ rest.data from rfl, List.append_assoc]]
    exact beginsWith_append "/home/".data (u.data ++ rest.data)
  have hrepl : jsReplaceFirst ("/home/" ++ u ++ rest) ("/home/" ++ u) "~"
      = "~" ++ rest :=
    jsReplaceFirst_append ("/home/" ++ u) rest "~"
  simp only [formatPath, hnotmac, Bool.false_eq_true, if_false, hstart, if_true,
    husername, ne_eq, hu, not_false_iff, ite_true, hrepl]

theorem formatPath_win_branch (c : Char) (u rest : String)
    (hA : 'A' ≤ c) (hZ : c ≤ 'Z')
    (huc : ∀ ch ∈ u.data, ch ≠ '\\')
    (hrest : rest = "" ∨ rest.data.head? = some '\\') :
    formatPath (String.singleton c ++ ":\\Users\\" ++ u ++ rest) = "~" ++ rest := by
  obtain ⟨T, hT⟩ := splitChar_head_group huc hrest
  have hcslash : decide (c = '/') = false :=
    decide_eq_false (fun h => absurd (h ▸ hA) (by decide))
  have hdata : (String.singleton c ++ ":\\Users\\" ++ u ++ rest).data
      = c :: ':' :: '\\' :: 'U' :: 's' :: 'e' :: 'r' :: 's' :: '\\' ::
        (u.data ++ rest.data) := by
    rw [show (((String.singleton c ++ ":\\Users\\") ++ u) ++ rest).data
        = ((c :: ":\\Users\\".data) ++ u.data) ++ rest.data from rfl, List.append_assoc]
    rfl
  have hnotmac : jsStartsWith (String.singleton c ++ ":\\Users\\" ++ u ++ rest)
      "/Users/" = false := by
    unfold jsStartsWith
    rw [hdata, show ("/Users/" : String).data
        = '/' :: ['U', 's', 'e', 'r', 's', '/'] from rfl, beginsWith_cons_cons,
      hcslash, Bool.false_and]
  have hnothome : jsStartsWith (String.singleton c ++ ":\\Users\\" ++ u ++ rest)
      "/home/" = false := by
    unfold jsStartsWith
    rw [hdata, show ("/home/" : String).data
        = '/' :: ['h', 'o', 'm', 'e', '/'] from rfl, beginsWith_cons_cons,
      hcslash, Bool.false_and]
  have hwin : winUsersTest (String.singleton c ++ ":\\Users\\" ++ u ++ rest) = true := by
    unfold winUsersTest
    rw [hdata]
    show (decide ('A' ≤ c) && decide (c ≤ 'Z')) = true
    rw [decide_eq_true hA, decide_eq_true hZ]
    rfl
  have hfree1 : ∀ ch ∈ [c, ':'], ch ≠ '\\' := by
    intro ch hch
    simp only [List.mem_cons, List.mem_singleton, List.not_mem_nil, or_false] at hch
    rcases hch with rfl | rfl
    · exact fun h => absurd (h ▸ hZ) (by decide)
    · decide
  have hsplit : splitChar '\\' (String.singleton c ++ ":\\Users\\" ++ u ++ rest).data
      = [c, ':'] :: "Users".data :: u.data :: T := by
    rw [hdata]
    rw [show c :: ':' :: '\\' :: 'U' :: 's' :: 'e' :: 'r' :: 's' :: '\\' ::
        (u.data ++ rest.data)
        = [c, ':'] ++ '\\' :: ("Users".data ++ '\\' :: (u.data ++ rest.data)) from rfl]
    rw [splitChar_group [c, ':'] hfree1, splitChar_group "Users".data (by decide), hT]
  have hparts : jsSplit (String.singleton c ++ ":\\Users\\" ++ u ++ rest) '\\'
      = String.mk [c, ':'] :: "Users" :: u :: T.map (fun l => String.mk l) := by
    unfold jsSplit
    rw [hsplit]
    rfl
  have hlen : (jsSplit (String.singleton c ++ ":\\Users\\" ++ u ++ rest) '\\').length
      > 2 := by
    rw [hparts]
    simp
  have hget0 : (jsSplit (String.singleton c ++ ":\\Users\\" ++ u ++ rest) '\\').getD 0 ""
      = String.mk [c, ':'] := by
    rw [hparts]
    rfl
  have hget2 : (jsSplit (String.singleton c ++ ":\\Users\\" ++ u ++ rest) '\\').getD 2 ""
      = u := by
    rw [hparts]
    rfl
  have hrepl : jsReplaceFirst (String.singleton c ++ ":\\Users\\" ++ u ++ rest)
      (String.mk [c, ':'] ++ "\\Users\\" ++ u) "~" = "~" ++ rest :=
    jsReplaceFirst_append (String.mk [c, ':'] ++ "\\Users\\" ++ u) rest "~"
  simp only [formatPath, hnotmac, Bool.false_eq_true, if_false, hnothome, hwin,
    if_true, hlen, gt_iff_lt, ite_true, hget0, hget2, hrepl]

/-- C9: `formatPath` replaces a recognised home-directory prefix with `~` for
every matching path — `/Users/<user>`, `/home/<user>`, and
`<Drive>:\Users\<user>` with a drive letter in `A`–`Z`, a nonempty
separator-free username, and a remainder that is empty or starts with the
separator — returns any path matching no home pattern unchanged, and never
affects the stored path value: after a save the persisted entry holds the
path itself, not its formatted form. -/
theorem formatPath_home_tilde :
    (∀ u rest : String, u ≠ "" → (∀ ch ∈ u.data, ch ≠ '/') →
        rest = "" ∨ rest.data.head? = some '/' →
        formatPath ("/Users/" ++ u ++ rest) = "~" ++ rest) ∧
      (∀ u rest : String, u ≠ "" → (∀ ch ∈ u.data, ch ≠ '/') →
        rest = "" ∨ rest.data.head? = some '/' →
        formatPath ("/home/" ++ u ++ rest) = "~" ++ rest) ∧
      (∀ (c : Char) (u rest : String), 'A' ≤ c → c ≤ 'Z' → u ≠ "" →
        (∀ ch ∈ u.data, ch ≠ '\\') →
        rest = "" ∨ rest.data.head? = some '\\' →
        formatPath (String.singleton c ++ ":\\Users\\" ++ u ++ rest) = "~" ++ rest) ∧
      (∀ p : String,
        (jsStartsWith p "/Users/" = false ∨ (jsSplit p '/').getD 2 "" = "") →
        (jsStartsWith p "/home/" = false ∨ (jsSplit p '/').getD 2 "" = "") →
        winUsersTest p = false →
        formatPath p = p) ∧
      (∀ (p : String) (t : Int) (st : Stored), jsTrim p ≠ "" →
        (storedItems (saveProjectToHistory p t st)).head? = some (newHistoryItem p t)) := by
  refine ⟨fun u rest hu huc hrest => formatPath_users_branch u rest hu huc hrest,
    fun u rest hu huc hrest => formatPath_home_branch u rest hu huc hrest,
    fun c u rest hA hZ _hu huc hrest => formatPath_win_branch c u rest hA hZ huc hrest,
    ?_, ?_⟩
  · intro p h1 h2 h3
    rcases h1 with h1 | h1 <;> rcases h2 with h2 | h2
    · simp [formatPath, h1, h2, h3]
    · rw [List.getD_eq_getElem?_getD] at h2
      simp [formatPath, h1, h2, h3]
    · rw [List.getD_eq_getElem?_getD] at h1
      simp [formatPath, h1, h2, h3]
    · rw [List.getD_eq_getElem?_getD] at h1
      simp [formatPath, h1, h3]
  · intro p t st hp
    rw [saveProjectToHistory_eq hp t st]
    simp only [storedItems]
    rw [show MAX_HISTORY_ITEMS = 9 + 1 from rfl, List.take_succ_cons, List.head?_cons]

/-- C9 witness: each branch instantiated concretely — the spec's three example
paths, a non-home path rendered unchanged, and a save storing the raw path. -/
theorem formatPath_home_tilde_witness :
    formatPath ("/Users/" ++ "alice" ++ "/projects/demo") = "~" ++ "/projects/demo" ∧
      formatPath ("/home/" ++ "bob" ++ "/work") = "~" ++ "/work" ∧
      formatPath (String.singleton 'C' ++ ":\\Users\\" ++ "carol" ++ "\\proj")
        = "~" ++ "\\proj" ∧
      formatPath "/opt/data" = "/opt/data" ∧
      (storedItems (saveProjectToHistory "/Users/alice/demo" 7 .absent)).head?
        = some (newHistoryItem "/Users/alice/demo" 7) :=
  ⟨formatPath_home_tilde.1 "alice" "/projects/demo" (by decide) (by decide)
      (Or.inr (by decide)),
    formatPath_home_tilde.2.1 "bob" "/work" (by decide) (by decide) (Or.inr (by decide)),
    formatPath_home_tilde.2.2.1 'C' "carol" "\\proj" (by decide) (by decide) (by decide)
      (by decide) (Or.inr (by decide)),
    formatPath_home_tilde.2.2.2.1 "/opt/data" (Or.inl (by decide)) (Or.inl (by decide))
      (by decide),
    formatPath_home_tilde.2.2.2.2 "/Users/alice/demo" 7 .absent (by decide)⟩
